import Mathlib

/-!
Shallow embedding of the filter-and-aggregate core of the salary dashboard
(`src/project.py`). The loaded dataset is a list of records; the four sidebar
multiselects become a `FilterSelection` of inclusion lists; the boolean-mask
filtering, the KPI metrics block, the top-roles bar-chart table and the salary
histogram are embedded as pure list functions over exact rationals.
-/

/-- One row of the loaded dataframe, with the CSV's column names. -/
structure Record where
  ano : Int
  senioridade : String
  contrato : String
  tamanho_empresa : String
  cargo : String
  usd : ℚ
  remoto : String
  residencia_iso3 : String
deriving DecidableEq

/-- The four sidebar multiselect values (`selected_years`, `selected_seniorities`,
`selected_contract_types`, `selected_company_sizes`). -/
structure FilterSelection where
  ano : List Int
  senioridade : List String
  contrato : List String
  tamanho_empresa : List String
deriving DecidableEq

/-- The boolean-mask row filter of `src/project.py` lines 69–74:
`df[isin(years) & isin(seniorities) & isin(contracts) & isin(sizes)]`. -/
def filtered_df (df : List Record) (s : FilterSelection) : List Record :=
  df.filter fun r =>
    decide (r.ano ∈ s.ano) && decide (r.senioridade ∈ s.senioridade) &&
    decide (r.contrato ∈ s.contrato) && decide (r.tamanho_empresa ∈ s.tamanho_empresa)

/-- `Series.unique()`: distinct values in order of first appearance. -/
def uniqueVals {α : Type} [DecidableEq α] (l : List α) : List α :=
  l.foldl (fun acc a => if a ∈ acc then acc else acc ++ [a]) []

/-- Ascending sort (Python `sorted`). -/
def sortAsc {α : Type} [LinearOrder α] (l : List α) : List α :=
  l.insertionSort (· ≤ ·)

/-- `sorted(df['ano'].unique())` (line 34). -/
def available_years (df : List Record) : List Int :=
  sortAsc (uniqueVals (df.map Record.ano))

/-- `sorted(df['senioridade'].unique())` (line 42). -/
def available_seniorities (df : List Record) : List String :=
  sortAsc (uniqueVals (df.map Record.senioridade))

/-- `sorted(df['contrato'].unique())` (line 50). -/
def available_contract_types (df : List Record) : List String :=
  sortAsc (uniqueVals (df.map Record.contrato))

/-- `sorted(df['tamanho_empresa'].unique())` (line 58). -/
def available_company_sizes (df : List Record) : List String :=
  sortAsc (uniqueVals (df.map Record.tamanho_empresa))

/-- The sidebar defaults (`default=available_*` on lines 35–63): all distinct
values of each of the four columns. -/
def defaultSelection (df : List Record) : FilterSelection :=
  ⟨available_years df, available_seniorities df,
   available_contract_types df, available_company_sizes df⟩

/-- Maximum of a list of rationals (pandas `Series.max`); `0` on the empty
list, which the source never hits (the metrics block is guarded by
`if not filtered_df.empty`). -/
def listMax (l : List ℚ) : ℚ :=
  match l with
  | [] => 0
  | a :: t => t.foldl max a

/-- Minimum of a list of rationals (pandas `Series.min`); `0` on the empty
list. -/
def listMin (l : List ℚ) : ℚ :=
  match l with
  | [] => 0
  | a :: t => t.foldl min a

/-- `filtered_df['usd'].mean()` (line 92): sum of salaries over record count. -/
def meanUsd (v : List Record) : ℚ :=
  (v.map Record.usd).sum / v.length

/-- Number of records of the view whose `cargo` equals `r`. -/
def roleCount (v : List Record) (r : String) : Nat :=
  (v.filter fun x => x.cargo == r).length

/-- The distinct roles of the view, in order of first appearance. -/
def rolesOf (v : List Record) : List String :=
  uniqueVals (v.map Record.cargo)

/-- The largest occurrence count among the view's roles. -/
def maxRoleCount (v : List Record) : Nat :=
  ((rolesOf v).map (roleCount v)).foldr max 0

/-- The roles attaining the maximum occurrence count. -/
def modeCandidates (v : List Record) : List String :=
  (rolesOf v).filter fun r => roleCount v r == maxRoleCount v

/-- `filtered_df['cargo'].mode()[0]` (line 95): pandas `mode()` returns the
values of maximal count sorted ascending, and `[0]` takes the first, so this
is the least such value. -/
def most_frequent_role (v : List Record) : String :=
  (sortAsc (modeCandidates v)).headD ""

/-- The four KPI scalars of lines 91–100. -/
structure MetricsSummary where
  average_salary : ℚ
  maximum_salary : ℚ
  total_records : Nat
  mode_role : String
deriving DecidableEq

/-- The KPI block of lines 91–100: zeros and the empty string on an empty
view, otherwise mean, max, count and most frequent role. -/
def summarize (v : List Record) : MetricsSummary :=
  if v.isEmpty then ⟨0, 0, 0, ""⟩
  else ⟨meanUsd v, listMax (v.map Record.usd), v.length, most_frequent_role v⟩

/-- Comparison of `(role, mean)` entries by descending mean. -/
def byMeanGE (p q : String × ℚ) : Prop := q.2 ≤ p.2

/-- Comparison of `(role, mean)` entries by ascending mean. -/
def byMeanLE (p q : String × ℚ) : Prop := p.2 ≤ q.2

instance : DecidableRel byMeanGE := fun p q => inferInstanceAs (Decidable (q.2 ≤ p.2))

instance : DecidableRel byMeanLE := fun p q => inferInstanceAs (Decidable (p.2 ≤ q.2))

instance : IsTotal (String × ℚ) byMeanGE := ⟨fun p q => le_total q.2 p.2⟩

instance : IsTrans (String × ℚ) byMeanGE := ⟨fun _ _ _ h h' => le_trans h' h⟩

instance : IsTotal (String × ℚ) byMeanLE := ⟨fun p q => le_total p.2 q.2⟩

instance : IsTrans (String × ℚ) byMeanLE := ⟨fun _ _ _ h h' => le_trans h h'⟩

/-- Mean salary of the records of the view whose role is `r`. -/
def roleMean (v : List Record) (r : String) : ℚ :=
  meanUsd (v.filter fun x => x.cargo == r)

/-- `filtered_df.groupby('cargo')['usd'].mean()` (lines 123–125): one
`(role, mean)` entry per distinct role, group keys sorted ascending
(pandas `groupby` sorts keys by default). -/
def groupedMeans (v : List Record) : List (String × ℚ) :=
  (sortAsc (rolesOf v)).map fun r => (r, roleMean v r)

/-- `Series.nlargest(n)` (line 126) with the default `keep='first'`: the `n`
largest entries by mean, descending, ties kept in input order. -/
def nlargestMeans (n : Nat) (l : List (String × ℚ)) : List (String × ℚ) :=
  (l.insertionSort byMeanGE).take n

/-- The `top_roles` table of lines 122–129: group means, ten largest, then
`.sort_values(ascending=True)`. -/
def top_roles (v : List Record) : List (String × ℚ) :=
  (nlargestMeans 10 (groupedMeans v)).insertionSort byMeanLE

/-- Index of the equal-width bin a salary `s` falls into, for bins of width
`w` starting at `lo`; the last of the `n` bins is closed above. -/
def binIdx (lo w : ℚ) (n : Nat) (s : ℚ) : Nat :=
  min (Int.toNat ⌊(s - lo) / w⌋) (n - 1)

/-- Modelled from the spec: the salary histogram of lines 153–169 delegates
its binning to the charting library, whose algorithm is not part of this
repository, so this follows §4.2's `salary_histogram_bins(view, bin_count)`:
equal-width bins spanning `[min(salary), max(salary)]` over the view, and a
single degenerate bin containing all records when the view is empty or has a
single distinct salary value. -/
def salary_histogram_bins (v : List Record) (binCount : Nat) : List (ℚ × ℚ × Nat) :=
  let sal := v.map Record.usd
  if v.isEmpty then [(0, 0, 0)]
  else if listMin sal = listMax sal then [(listMin sal, listMax sal, v.length)]
  else
    let lo := listMin sal
    let w := (listMax sal - lo) / binCount
    (List.range binCount).map fun i : Nat =>
      (lo + (i : ℚ) * w, lo + ((i : ℚ) + 1) * w,
        (sal.filter fun s => binIdx lo w binCount s == i).length)

/-- Modelled from the spec (for comparison with the source's
`most_frequent_role`, not taken from the source): "Mode tie-break: first
value achieving the maximum count when scanning in the view's stable
order". -/
def specFirstMode (v : List Record) : String :=
  ((rolesOf v).filter fun r => roleCount v r == maxRoleCount v).headD ""

/-- A concrete record with role `"b"`, used in concrete instantiations. -/
def recB : Record := ⟨2023, "SR", "CLT", "L", "b", 100, "Remote", "USA"⟩

/-- A concrete record with role `"a"`, used in concrete instantiations. -/
def recA : Record := ⟨2023, "SR", "CLT", "L", "a", 100, "Remote", "USA"⟩

/-- A concrete record with salary `0`, used in concrete instantiations. -/
def recLo : Record := ⟨2023, "SR", "CLT", "L", "x", 0, "Remote", "USA"⟩

/-- A concrete record with salary `30`, used in concrete instantiations. -/
def recHi : Record := ⟨2024, "JR", "PJ", "S", "y", 30, "On-site", "BRA"⟩

section UniqueValsLemmas

variable {α : Type} [DecidableEq α]

theorem mem_uniqueVals_foldl (l : List α) :
    ∀ (acc : List α) (x : α),
      x ∈ l.foldl (fun acc a => if a ∈ acc then acc else acc ++ [a]) acc ↔
        x ∈ acc ∨ x ∈ l := by
  induction l with
  | nil => simp
  | cons a l ih =>
    intro acc x
    simp only [List.foldl_cons]
    by_cases h : a ∈ acc
    · rw [if_pos h, ih]
      constructor
      · rintro (hx | hx)
        · exact Or.inl hx
        · exact Or.inr (List.mem_cons_of_mem _ hx)
      · rintro (hx | hx)
        · exact Or.inl hx
        · rcases List.mem_cons.mp hx with rfl | hx
          · exact Or.inl h
          · exact Or.inr hx
    · rw [if_neg h, ih]
      constructor
      · rintro (hx | hx)
        · rcases List.mem_append.mp hx with hx | hx
          · exact Or.inl hx
          · simp only [List.mem_singleton] at hx
            exact Or.inr (hx ▸ List.mem_cons_self a l)
        · exact Or.inr (List.mem_cons_of_mem _ hx)
      · rintro (hx | hx)
        · exact Or.inl (List.mem_append.mpr (Or.inl hx))
        · rcases List.mem_cons.mp hx with rfl | hx
          · exact Or.inl (List.mem_append.mpr (Or.inr (List.mem_singleton.mpr rfl)))
          · exact Or.inr hx

theorem mem_uniqueVals {l : List α} {x : α} : x ∈ uniqueVals l ↔ x ∈ l := by
  rw [uniqueVals, mem_uniqueVals_foldl]
  simp

theorem nodup_uniqueVals_foldl (l : List α) :
    ∀ acc : List α, acc.Nodup →
      (l.foldl (fun acc a => if a ∈ acc then acc else acc ++ [a]) acc).Nodup := by
  induction l with
  | nil => intro acc h; simpa using h
  | cons a l ih =>
    intro acc hacc
    simp only [List.foldl_cons]
    by_cases h : a ∈ acc
    · rw [if_pos h]; exact ih acc hacc
    · rw [if_neg h]
      refine ih _ (List.nodup_append.mpr ⟨hacc, List.nodup_singleton a, ?_⟩)
      intro x hx hx'
      simp only [List.mem_singleton] at hx'
      exact h (hx' ▸ hx)

theorem nodup_uniqueVals (l : List α) : (uniqueVals l).Nodup :=
  nodup_uniqueVals_foldl l [] List.nodup_nil

end UniqueValsLemmas

theorem mem_sortAsc {α : Type} [LinearOrder α] {l : List α} {x : α} :
    x ∈ sortAsc l ↔ x ∈ l :=
  (List.perm_insertionSort _ l).mem_iff

/-- C1 helper: unfolding membership in the filtered dataframe. -/
theorem mem_filtered_df {df : List Record} {s : FilterSelection} {r : Record} :
    r ∈ filtered_df df s ↔
      r ∈ df ∧ r.ano ∈ s.ano ∧ r.senioridade ∈ s.senioridade ∧
        r.contrato ∈ s.contrato ∧ r.tamanho_empresa ∈ s.tamanho_empresa := by
  simp [filtered_df, List.mem_filter, and_assoc]

/-- C1: filtering is sound and complete: a record of the collection is in the
filtered view exactly when its year, seniority, contract type and company size
each belong to the corresponding selection list. -/
theorem C1_filter_sound_complete (df : List Record) (s : FilterSelection) (r : Record) :
    r ∈ filtered_df df s ↔
      r ∈ df ∧ r.ano ∈ s.ano ∧ r.senioridade ∈ s.senioridade ∧
        r.contrato ∈ s.contrato ∧ r.tamanho_empresa ∈ s.tamanho_empresa :=
  mem_filtered_df

/-- C2: a selection whose four lists hold exactly the distinct values present
in the corresponding columns (as the sidebar defaults do) filters the
collection to itself. -/
theorem C2_default_selection_identity (df : List Record) (s : FilterSelection)
    (h1 : ∀ y, y ∈ s.ano ↔ y ∈ df.map Record.ano)
    (h2 : ∀ y, y ∈ s.senioridade ↔ y ∈ df.map Record.senioridade)
    (h3 : ∀ y, y ∈ s.contrato ↔ y ∈ df.map Record.contrato)
    (h4 : ∀ y, y ∈ s.tamanho_empresa ↔ y ∈ df.map Record.tamanho_empresa) :
    filtered_df df s = df := by
  apply List.filter_eq_self.mpr
  intro r hr
  simp only [Bool.and_eq_true, decide_eq_true_eq]
  exact ⟨⟨⟨(h1 _).mpr (List.mem_map_of_mem _ hr), (h2 _).mpr (List.mem_map_of_mem _ hr)⟩,
    (h3 _).mpr (List.mem_map_of_mem _ hr)⟩, (h4 _).mpr (List.mem_map_of_mem _ hr)⟩

/-- C2 witness: the default sidebar selection of a concrete collection holds
exactly the distinct column values, and filtering with it is the identity. -/
theorem C2_default_selection_identity_witness :
    filtered_df [recB, recA] (defaultSelection [recB, recA]) = [recB, recA] :=
  C2_default_selection_identity [recB, recA] (defaultSelection [recB, recA])
    (by simp [defaultSelection, available_years, sortAsc, uniqueVals,
      List.insertionSort, List.orderedInsert, recB, recA])
    (by simp [defaultSelection, available_seniorities, sortAsc, uniqueVals,
      List.insertionSort, List.orderedInsert, recB, recA])
    (by simp [defaultSelection, available_contract_types, sortAsc, uniqueVals,
      List.insertionSort, List.orderedInsert, recB, recA])
    (by simp [defaultSelection, available_company_sizes, sortAsc, uniqueVals,
      List.insertionSort, List.orderedInsert, recB, recA])

/-- C7: if any one of the four selection lists is empty, the filtered view is
empty (an empty multiselect selects nothing, not everything). -/
theorem C7_empty_selection_empty_view (df : List Record) (s : FilterSelection)
    (h : s.ano = [] ∨ s.senioridade = [] ∨ s.contrato = [] ∨ s.tamanho_empresa = []) :
    filtered_df df s = [] := by
  rw [List.eq_nil_iff_forall_not_mem]
  intro r hr
  rw [mem_filtered_df] at hr
  rcases h with h | h | h | h <;> rw [h] at hr <;> tauto

/-- C7 witness: a concrete one-record collection with an empty year selection
filters to the empty view. -/
theorem C7_empty_selection_empty_view_witness :
    filtered_df [⟨2023, "SR", "CLT", "L", "Data Scientist", 120000, "Remote", "USA"⟩]
      ⟨[], ["SR"], ["CLT"], ["L"]⟩ = [] :=
  C7_empty_selection_empty_view _ _ (Or.inl rfl)

/-- C8: filtering is idempotent: refiltering a filtered view with the same
selection returns it unchanged. -/
theorem C8_filter_idempotent (df : List Record) (s : FilterSelection) :
    filtered_df (filtered_df df s) s = filtered_df df s := by
  apply List.filter_eq_self.mpr
  intro r hr
  exact (List.mem_filter.mp hr).2

/-- C9: filtering is monotone in the selection: enlarging every selection list
enlarges the view as a subsequence, and both views preserve the collection's
record order (they are subsequences of it). -/
theorem C9_filter_monotone (df : List Record) (s₁ s₂ : FilterSelection)
    (h₁ : ∀ x, x ∈ s₁.ano → x ∈ s₂.ano)
    (h₂ : ∀ x, x ∈ s₁.senioridade → x ∈ s₂.senioridade)
    (h₃ : ∀ x, x ∈ s₁.contrato → x ∈ s₂.contrato)
    (h₄ : ∀ x, x ∈ s₁.tamanho_empresa → x ∈ s₂.tamanho_empresa) :
    (filtered_df df s₁).Sublist (filtered_df df s₂) ∧
      (filtered_df df s₁).Sublist df ∧ (filtered_df df s₂).Sublist df := by
  refine ⟨?_, List.filter_sublist df, List.filter_sublist df⟩
  apply List.monotone_filter_right
  intro r hr
  simp only [Bool.and_eq_true, decide_eq_true_eq] at hr ⊢
  exact ⟨⟨⟨h₁ _ hr.1.1.1, h₂ _ hr.1.1.2⟩, h₃ _ hr.1.2⟩, h₄ _ hr.2⟩

/-- C9 witness: concrete nested selections over a two-record collection. -/
theorem C9_filter_monotone_witness :
    (filtered_df
        [⟨2023, "SR", "CLT", "L", "Data Scientist", 120000, "Remote", "USA"⟩,
         ⟨2024, "JR", "PJ", "S", "Data Analyst", 60000, "On-site", "BRA"⟩]
        ⟨[2023], ["SR"], ["CLT"], ["L"]⟩).Sublist
      (filtered_df
        [⟨2023, "SR", "CLT", "L", "Data Scientist", 120000, "Remote", "USA"⟩,
         ⟨2024, "JR", "PJ", "S", "Data Analyst", 60000, "On-site", "BRA"⟩]
        ⟨[2023, 2024], ["SR", "JR"], ["CLT", "PJ"], ["L", "S"]⟩) :=
  (C9_filter_monotone _ _ _
    (by intro x hx; simp only [List.mem_cons, List.mem_singleton] at hx ⊢; tauto)
    (by intro x hx; simp only [List.mem_cons, List.mem_singleton] at hx ⊢; tauto)
    (by intro x hx; simp only [List.mem_cons, List.mem_singleton] at hx ⊢; tauto)
    (by intro x hx; simp only [List.mem_cons, List.mem_singleton] at hx ⊢; tauto)).1

section FoldMaxMin

theorem le_foldl_max (t : List ℚ) :
    ∀ a x : ℚ, (x = a ∨ x ∈ t) → x ≤ t.foldl max a := by
  induction t with
  | nil =>
    intro a x h
    rcases h with rfl | h
    · exact le_refl x
    · cases h
  | cons b t ih =>
    intro a x h
    rw [List.foldl_cons]
    rcases h with rfl | h
    · exact le_trans (le_max_left x b) (ih (max x b) _ (Or.inl rfl))
    · rcases List.mem_cons.mp h with rfl | h
      · exact le_trans (le_max_right a x) (ih (max a x) _ (Or.inl rfl))
      · exact ih (max a b) x (Or.inr h)

theorem foldl_min_le (t : List ℚ) :
    ∀ a x : ℚ, (x = a ∨ x ∈ t) → t.foldl min a ≤ x := by
  induction t with
  | nil =>
    intro a x h
    rcases h with rfl | h
    · exact le_refl x
    · cases h
  | cons b t ih =>
    intro a x h
    rw [List.foldl_cons]
    rcases h with rfl | h
    · exact le_trans (ih (min x b) _ (Or.inl rfl)) (min_le_left x b)
    · rcases List.mem_cons.mp h with rfl | h
      · exact le_trans (ih (min a x) _ (Or.inl rfl)) (min_le_right a x)
      · exact ih (min a b) x (Or.inr h)

theorem le_listMax {l : List ℚ} {x : ℚ} (h : x ∈ l) : x ≤ listMax l := by
  cases l with
  | nil => cases h
  | cons a t =>
    rw [listMax]
    rcases List.mem_cons.mp h with rfl | h
    · exact le_foldl_max t x x (Or.inl rfl)
    · exact le_foldl_max t a x (Or.inr h)

theorem listMin_le {l : List ℚ} {x : ℚ} (h : x ∈ l) : listMin l ≤ x := by
  cases l with
  | nil => cases h
  | cons a t =>
    rw [listMin]
    rcases List.mem_cons.mp h with rfl | h
    · exact foldl_min_le t x x (Or.inl rfl)
    · exact foldl_min_le t a x (Or.inr h)

theorem foldr_max_mem (l : List Nat) (h : l ≠ []) : l.foldr max 0 ∈ l := by
  induction l with
  | nil => exact absurd rfl h
  | cons a t ih =>
    match t with
    | [] => simp
    | b :: t' =>
      rw [List.foldr_cons]
      rcases le_total (List.foldr max 0 (b :: t')) a with hle | hle
      · rw [max_eq_left hle]
        exact List.mem_cons_self _ _
      · rw [max_eq_right hle]
        exact List.mem_cons_of_mem _ (ih (List.cons_ne_nil b t'))

theorem le_foldr_max {l : List Nat} {x : Nat} (h : x ∈ l) : x ≤ l.foldr max 0 := by
  induction l with
  | nil => cases h
  | cons a t ih =>
    rw [List.foldr_cons]
    rcases List.mem_cons.mp h with rfl | h
    · exact le_max_left _ _
    · exact le_trans (ih h) (le_max_right _ _)

end FoldMaxMin

theorem summarize_ne_nil {v : List Record} (hne : v ≠ []) :
    summarize v =
      ⟨meanUsd v, listMax (v.map Record.usd), v.length, most_frequent_role v⟩ := by
  rw [summarize, if_neg]
  intro h
  exact hne (List.isEmpty_iff.mp h)

/-- C3: on the empty view, the KPI block returns mean `0`, max `0`, count `0`
and the empty string for the most frequent role, and does not fail. -/
theorem C3_summarize_empty : summarize [] = ⟨0, 0, 0, ""⟩ := rfl

/-- C10: on a non-empty view with non-negative salaries, the KPI scalars are
mutually consistent: `0 ≤ mean ≤ max` and the reported count is the number of
records in the view. -/
theorem C10_summary_consistent (v : List Record) (hne : v ≠ [])
    (hnn : ∀ r ∈ v, 0 ≤ r.usd) :
    0 ≤ (summarize v).average_salary ∧
      (summarize v).average_salary ≤ (summarize v).maximum_salary ∧
      (summarize v).total_records = v.length := by
  have hlen : 0 < (v.length : ℚ) := by
    have := List.length_pos.mpr hne
    exact_mod_cast this
  rw [summarize_ne_nil hne]
  have husd : ∀ x ∈ v.map Record.usd, 0 ≤ x := by
    intro x hx
    rcases List.mem_map.mp hx with ⟨r, hr, rfl⟩
    exact hnn r hr
  refine ⟨?_, ?_, rfl⟩
  · exact div_nonneg (List.sum_nonneg husd) (le_of_lt hlen)
  · show meanUsd v ≤ listMax (v.map Record.usd)
    rw [meanUsd, div_le_iff₀ hlen]
    have hb : ∀ x ∈ v.map Record.usd, x ≤ listMax (v.map Record.usd) :=
      fun x hx => le_listMax hx
    have hs := List.sum_le_card_nsmul (v.map Record.usd) _ hb
    rw [List.length_map] at hs
    calc (v.map Record.usd).sum ≤ v.length • listMax (v.map Record.usd) := hs
      _ = listMax (v.map Record.usd) * v.length := by rw [nsmul_eq_mul]; ring

/-- C10 witness: a concrete two-record view. -/
theorem C10_summary_consistent_witness :
    0 ≤ (summarize [⟨2023, "SR", "CLT", "L", "Data Scientist", 120000, "Remote", "USA"⟩,
          ⟨2024, "JR", "PJ", "S", "Data Analyst", 60000, "On-site", "BRA"⟩]).average_salary ∧
      (summarize [⟨2023, "SR", "CLT", "L", "Data Scientist", 120000, "Remote", "USA"⟩,
          ⟨2024, "JR", "PJ", "S", "Data Analyst", 60000, "On-site", "BRA"⟩]).average_salary ≤
        (summarize [⟨2023, "SR", "CLT", "L", "Data Scientist", 120000, "Remote", "USA"⟩,
          ⟨2024, "JR", "PJ", "S", "Data Analyst", 60000, "On-site", "BRA"⟩]).maximum_salary ∧
      (summarize [⟨2023, "SR", "CLT", "L", "Data Scientist", 120000, "Remote", "USA"⟩,
          ⟨2024, "JR", "PJ", "S", "Data Analyst", 60000, "On-site", "BRA"⟩]).total_records =
        [⟨2023, "SR", "CLT", "L", "Data Scientist", 120000, "Remote", "USA"⟩,
          (⟨2024, "JR", "PJ", "S", "Data Analyst", 60000, "On-site", "BRA"⟩ : Record)].length :=
  C10_summary_consistent _ (by simp)
    (by intro r hr
        rcases List.mem_cons.mp hr with rfl | hr
        · simp
        · rcases List.mem_cons.mp hr with rfl | hr
          · simp
          · cases hr)

theorem rolesOf_ne_nil {v : List Record} (hne : v ≠ []) : rolesOf v ≠ [] := by
  cases v with
  | nil => exact absurd rfl hne
  | cons a t =>
    have : a.cargo ∈ rolesOf (a :: t) :=
      mem_uniqueVals.mpr (List.mem_map_of_mem _ (List.mem_cons_self a t))
    exact List.ne_nil_of_mem this

theorem modeCandidates_ne_nil {v : List Record} (hne : v ≠ []) :
    modeCandidates v ≠ [] := by
  have hroles := rolesOf_ne_nil hne
  have hmap : (rolesOf v).map (roleCount v) ≠ [] := by
    intro h
    exact hroles (List.map_eq_nil_iff.mp h)
  have hmem := foldr_max_mem _ hmap
  rcases List.mem_map.mp hmem with ⟨r, hr, hrc⟩
  apply List.ne_nil_of_mem (a := r)
  rw [modeCandidates, List.mem_filter]
  exact ⟨hr, by rw [beq_iff_eq, hrc]; rfl⟩

theorem most_frequent_role_least {v : List Record} (hne : v ≠ []) :
    most_frequent_role v ∈ modeCandidates v ∧
      ∀ r ∈ modeCandidates v, most_frequent_role v ≤ r := by
  have hc := modeCandidates_ne_nil hne
  have hperm : List.Perm (sortAsc (modeCandidates v)) (modeCandidates v) :=
    List.perm_insertionSort _ _
  have hsorted : (sortAsc (modeCandidates v)).Sorted (· ≤ ·) :=
    List.sorted_insertionSort _ _
  cases hs : sortAsc (modeCandidates v) with
  | nil =>
    exfalso
    apply hc
    have := hperm.length_eq
    rw [hs] at this
    exact List.length_eq_zero.mp this.symm
  | cons m t =>
    rw [most_frequent_role, hs]
    simp only [List.headD_cons]
    rw [hs] at hperm hsorted
    constructor
    · exact hperm.mem_iff.mp (List.mem_cons_self m t)
    · intro r hr
      rcases List.mem_cons.mp (hperm.mem_iff.mpr hr) with rfl | hrt
      · exact le_refl r
      · exact List.rel_of_sorted_cons hsorted r hrt

/-- C4 counterexample: on a view whose two roles `"b"` (first encountered)
and `"a"` are tied for the maximum count, the code returns `"a"`, not the
first-encountered `"b"` that the claim requires. -/
theorem C4_counterexample :
    (summarize [recB, recA]).mode_role = "a" ∧
      specFirstMode [recB, recA] = "b" ∧ ("a" : String) ≠ "b" := by
  refine ⟨?_, ?_, ?_⟩
  · show (summarize [recB, recA]).mode_role = "a"
    rw [summarize_ne_nil (by simp)]
    show most_frequent_role [recB, recA] = "a"
    rw [most_frequent_role, modeCandidates, maxRoleCount, rolesOf]
    simp only [recB, recA, uniqueVals, roleCount, sortAsc, List.insertionSort,
      List.orderedInsert, List.map, List.foldl, List.filter, List.foldr]
    norm_num
    decide
  · rw [specFirstMode, maxRoleCount, rolesOf]
    simp only [recB, recA, uniqueVals, roleCount, List.map, List.foldl,
      List.filter, List.foldr]
    decide
  · decide

/-- C4 (amended): on a non-empty view the most-frequent-role metric occurs in
the view, attains the maximum occurrence count, and is the lexicographically
least role attaining that count (pandas `mode()` sorts the tied values and
`[0]` takes the first). -/
theorem C4_mode_least (v : List Record) (hne : v ≠ []) :
    (summarize v).mode_role ∈ v.map Record.cargo ∧
      (∀ r ∈ v.map Record.cargo, roleCount v r ≤ roleCount v (summarize v).mode_role) ∧
      (∀ r ∈ v.map Record.cargo,
        roleCount v r = roleCount v (summarize v).mode_role → (summarize v).mode_role ≤ r) := by
  rw [summarize_ne_nil hne]
  show most_frequent_role v ∈ v.map Record.cargo ∧ _ ∧ _
  obtain ⟨hmem, hleast⟩ := most_frequent_role_least hne
  rw [modeCandidates, List.mem_filter, beq_iff_eq] at hmem
  obtain ⟨hroles, hcnt⟩ := hmem
  refine ⟨mem_uniqueVals.mp hroles, ?_, ?_⟩
  · intro r hr
    rw [hcnt]
    exact le_foldr_max (List.mem_map_of_mem _ (mem_uniqueVals.mpr hr))
  · intro r hr hrc
    apply hleast
    rw [modeCandidates, List.mem_filter, beq_iff_eq]
    exact ⟨mem_uniqueVals.mpr hr, by rw [hrc, hcnt]⟩

/-- C4 witness: the amended claim applied to the concrete tied view. -/
theorem C4_mode_least_witness :
    (summarize [recB, recA]).mode_role ∈ [recB, recA].map Record.cargo ∧
      (∀ r ∈ [recB, recA].map Record.cargo,
        roleCount [recB, recA] r ≤ roleCount [recB, recA] (summarize [recB, recA]).mode_role) ∧
      (∀ r ∈ [recB, recA].map Record.cargo,
        roleCount [recB, recA] r = roleCount [recB, recA] (summarize [recB, recA]).mode_role →
          (summarize [recB, recA]).mode_role ≤ r) :=
  C4_mode_least [recB, recA] (by simp)

theorem listMin_le_listMax {l : List ℚ} (h : l ≠ []) : listMin l ≤ listMax l := by
  cases l with
  | nil => exact absurd rfl h
  | cons a t =>
    exact le_trans (listMin_le (List.mem_cons_self a t)) (le_listMax (List.mem_cons_self a t))

theorem binIdx_lt (lo w : ℚ) {n : Nat} (hn : 0 < n) (s : ℚ) : binIdx lo w n s < n :=
  lt_of_le_of_lt (min_le_right _ _) (Nat.sub_lt hn one_pos)

theorem sum_filter_bin (g : ℚ → Nat) (n : Nat) :
    ∀ sal : List ℚ, (∀ s ∈ sal, g s < n) →
      (∑ i in Finset.range n, (sal.filter fun x => g x == i).length) = sal.length := by
  intro sal
  induction sal with
  | nil => intro _; simp
  | cons s t ih =>
    intro h
    have hs := h s (List.mem_cons_self s t)
    have ht : ∀ x ∈ t, g x < n := fun x hx => h x (List.mem_cons_of_mem _ hx)
    have hsplit : ∀ i : Nat, ((s :: t).filter fun x => g x == i).length
        = (if g s = i then 1 else 0) + (t.filter fun x => g x == i).length := by
      intro i
      rw [List.filter_cons]
      split <;> rename_i hgi <;> simp_all [Nat.add_comm]
    calc (∑ i in Finset.range n, ((s :: t).filter fun x => g x == i).length)
        = ∑ i in Finset.range n,
            ((if g s = i then 1 else 0) + (t.filter fun x => g x == i).length) :=
          Finset.sum_congr rfl fun i _ => hsplit i
      _ = (∑ i in Finset.range n, if g s = i then 1 else 0)
            + ∑ i in Finset.range n, (t.filter fun x => g x == i).length :=
          Finset.sum_add_distrib
      _ = 1 + t.length := by
          rw [ih ht, Finset.sum_ite_eq, if_pos (Finset.mem_range.mpr hs)]
      _ = (s :: t).length := by rw [List.length_cons, Nat.add_comm]


theorem getD_map_range {β : Type} {n i : Nat} (f : Nat → β) (d : β) (h : i < n) :
    ((List.range n).map f).getD i d = f i := by
  rw [List.getD_eq_getElem?_getD, List.getElem?_map, List.getElem?_range h]
  rfl

theorem histogram_unfold {v : List Record} (hempty : v.isEmpty = false)
    (hd : listMin (v.map Record.usd) ≠ listMax (v.map Record.usd)) :
    salary_histogram_bins v 30 = (List.range 30).map fun i : Nat =>
      (listMin (v.map Record.usd) +
         (i : ℚ) * ((listMax (v.map Record.usd) - listMin (v.map Record.usd)) / 30),
       listMin (v.map Record.usd) +
         ((i : ℚ) + 1) * ((listMax (v.map Record.usd) - listMin (v.map Record.usd)) / 30),
       ((v.map Record.usd).filter fun s =>
         binIdx (listMin (v.map Record.usd))
           ((listMax (v.map Record.usd) - listMin (v.map Record.usd)) / 30) 30 s == i).length) := by
  rw [salary_histogram_bins]
  simp only [hempty, Bool.false_eq_true, if_false, if_neg hd]
  norm_num

/-- C6: for a non-empty view with at least two distinct salary values,
`salary_histogram_bins` with 30 requested bins returns exactly 30 bins, each
of width `(max − min)/30` and non-degenerate, adjacent bins contiguous, bins
pairwise non-overlapping, the first bin starting at the minimum salary, the
last bin ending at the maximum salary, and the bin counts summing to the
view's record count; for an empty view or a single distinct salary value it
returns one degenerate bin containing all records. -/
theorem C6_histogram_bins (v : List Record) :
    ((v ≠ [] ∧ listMin (v.map Record.usd) ≠ listMax (v.map Record.usd)) →
      (salary_histogram_bins v 30).length = 30 ∧
      (∀ i : Nat, i < 30 →
        ((salary_histogram_bins v 30).getD i (0, 0, 0)).2.1 -
            ((salary_histogram_bins v 30).getD i (0, 0, 0)).1 =
          (listMax (v.map Record.usd) - listMin (v.map Record.usd)) / 30 ∧
        ((salary_histogram_bins v 30).getD i (0, 0, 0)).1 <
          ((salary_histogram_bins v 30).getD i (0, 0, 0)).2.1) ∧
      (∀ i : Nat, i + 1 < 30 →
        ((salary_histogram_bins v 30).getD i (0, 0, 0)).2.1 =
          ((salary_histogram_bins v 30).getD (i + 1) (0, 0, 0)).1) ∧
      (∀ i j : Nat, i < j → j < 30 →
        ((salary_histogram_bins v 30).getD i (0, 0, 0)).2.1 ≤
          ((salary_histogram_bins v 30).getD j (0, 0, 0)).1) ∧
      ((salary_histogram_bins v 30).getD 0 (0, 0, 0)).1 = listMin (v.map Record.usd) ∧
      ((salary_histogram_bins v 30).getD 29 (0, 0, 0)).2.1 = listMax (v.map Record.usd) ∧
      ((salary_histogram_bins v 30).map fun b => b.2.2).sum = v.length)
    ∧ ((v = [] ∨ listMin (v.map Record.usd) = listMax (v.map Record.usd)) →
      ∃ a b, salary_histogram_bins v 30 = [(a, b, v.length)]) := by
  constructor
  · rintro ⟨hne, hd⟩
    have hempty : v.isEmpty = false := by
      cases v with
      | nil => exact absurd rfl hne
      | cons a t => rfl
    have hsal : v.map Record.usd ≠ [] := by
      intro h
      exact hne (List.map_eq_nil_iff.mp h)
    have hlt : listMin (v.map Record.usd) < listMax (v.map Record.usd) :=
      lt_of_le_of_ne (listMin_le_listMax hsal) hd
    have hw : 0 < (listMax (v.map Record.usd) - listMin (v.map Record.usd)) / 30 :=
      div_pos (sub_pos.mpr hlt) (by norm_num)
    rw [histogram_unfold hempty hd]
    refine ⟨by rw [List.length_map, List.length_range], ?_, ?_, ?_, ?_, ?_, ?_⟩
    · intro i h
      rw [getD_map_range _ _ h]
      constructor
      · ring
      · have heq : listMin (v.map Record.usd) + ((i : ℚ) + 1) *
              ((listMax (v.map Record.usd) - listMin (v.map Record.usd)) / 30) =
            listMin (v.map Record.usd) + (i : ℚ) *
              ((listMax (v.map Record.usd) - listMin (v.map Record.usd)) / 30) +
              (listMax (v.map Record.usd) - listMin (v.map Record.usd)) / 30 := by ring
        rw [heq]
        linarith [hw]
    · intro i h
      rw [getD_map_range _ _ h, getD_map_range _ _ (Nat.lt_of_succ_lt h)]
      push_cast
      ring
    · intro i j hij hj
      rw [getD_map_range _ _ hj, getD_map_range _ _ (Nat.lt_trans hij hj)]
      have hle : ((i : ℚ) + 1) ≤ (j : ℚ) := by exact_mod_cast hij
      have hmul := mul_le_mul_of_nonneg_right hle (le_of_lt hw)
      linarith [hmul]
    · rw [getD_map_range _ _ (by norm_num : (0 : Nat) < 30)]
      push_cast
      ring
    · rw [getD_map_range _ _ (by norm_num : (29 : Nat) < 30)]
      push_cast
      field_simp
      ring
    · rw [List.map_map]
      have hbridge : ∀ g : Nat → Nat,
          ((List.range 30).map g).sum = ∑ i in Finset.range 30, g i := fun g => rfl
      rw [hbridge]
      simp only [Function.comp]
      rw [sum_filter_bin _ 30 _ (fun s _ => binIdx_lt _ _ (by norm_num) s), List.length_map]
  · intro h
    by_cases hv : v = []
    · subst hv
      exact ⟨0, 0, rfl⟩
    · have hdeg : listMin (v.map Record.usd) = listMax (v.map Record.usd) := by
        rcases h with h | h
        · exact absurd h hv
        · exact h
      have hempty : v.isEmpty = false := by
        cases v with
        | nil => exact absurd rfl hv
        | cons a t => rfl
      simp only [salary_histogram_bins, hempty, Bool.false_eq_true, if_false, if_pos hdeg]
      exact ⟨_, _, rfl⟩

/-- C6 witness: the bin counts of the histogram of a concrete two-record view
with distinct salaries sum to its record count. -/
theorem C6_histogram_bins_witness :
    ((salary_histogram_bins [recLo, recHi] 30).map fun b => b.2.2).sum =
      [recLo, recHi].length :=
  ((C6_histogram_bins [recLo, recHi]).1
    ⟨by simp, by simp [recLo, recHi, listMin, listMax, List.foldl]⟩).2.2.2.2.2.2

section PairSublist

variable {α : Type}

theorem pair_sublist_of_mem_pairwise {R : α → α → Prop}
    (hasymm : ∀ x y, R x y → ¬ R y x) :
    ∀ {l : List α}, l.Pairwise R → ∀ {a b : α}, a ∈ l → b ∈ l → R a b →
      List.Sublist [a, b] l := by
  intro l
  induction l with
  | nil => intro _ a b ha; cases ha
  | cons x t ih =>
    intro hp a b ha hb hR
    obtain ⟨hx, ht⟩ := List.pairwise_cons.mp hp
    rcases List.mem_cons.mp ha with rfl | hat
    · rcases List.mem_cons.mp hb with rfl | hbt
      · exact absurd hR (hasymm _ _ hR)
      · exact List.Sublist.cons₂ _ (List.singleton_sublist.mpr hbt)
    · rcases List.mem_cons.mp hb with rfl | hbt
      · exact absurd hR (hasymm _ a (hx a hat))
      · exact List.Sublist.cons x (ih ht hat hbt hR)

theorem pair_sublist_append_left {a b : α} {t d : List α}
    (h : List.Sublist [a, b] (t ++ d)) (hnd : (t ++ d).Nodup) (hb : b ∈ t) :
    List.Sublist [a, b] t := by
  obtain ⟨l1, l2, heq, h1, h2⟩ := List.sublist_append_iff.mp h
  have hdisj := (List.nodup_append.mp hnd).2.2
  match l1, heq with
  | [], heq =>
    rw [List.nil_append] at heq
    subst heq
    exact absurd (hdisj hb (h2.subset (List.mem_cons_of_mem _ (List.mem_singleton.mpr rfl)))) id
  | [x], heq =>
    simp only [List.cons_append, List.nil_append, List.cons.injEq] at heq
    obtain ⟨rfl, heq2⟩ := heq
    rw [← heq2] at h2
    exact absurd (hdisj hb (h2.subset (List.mem_singleton.mpr rfl))) id
  | x :: y :: l1', heq =>
    simp only [List.cons_append, List.cons.injEq] at heq
    obtain ⟨rfl, rfl, heq3⟩ := heq
    have : l1' ++ l2 = [] := heq3.symm
    have hl1 : l1' = [] := List.append_eq_nil.mp this |>.1
    subst hl1
    simpa using h1

theorem eq_of_pair_sublist_both {a b : α} :
    ∀ {l : List α}, l.Nodup → List.Sublist [a, b] l → List.Sublist [b, a] l → a = b := by
  intro l
  induction l with
  | nil => intro _ hab; cases hab
  | cons x t ih =>
    intro hnd hab hba
    have hxt : x ∉ t := (List.nodup_cons.mp hnd).1
    have hndt : t.Nodup := (List.nodup_cons.mp hnd).2
    cases hab with
    | cons _ hab2 =>
      cases hba with
      | cons _ hba2 => exact ih hndt hab2 hba2
      | cons₂ _ hba2 =>
        exact absurd (hab2.subset (List.mem_cons_of_mem _ (List.mem_singleton.mpr rfl))) hxt
    | cons₂ _ hab2 =>
      cases hba with
      | cons _ hba2 =>
        exact absurd (hba2.subset (List.mem_cons_of_mem _ (List.mem_singleton.mpr rfl))) hxt
      | cons₂ _ hba2 => rfl

end PairSublist

theorem sortAsc_pairwise_lt {α : Type} [LinearOrder α] {l : List α} (h : l.Nodup) :
    (sortAsc l).Pairwise (· < ·) :=
  List.Sorted.lt_of_le (List.sorted_insertionSort _ l)
    ((List.perm_insertionSort _ l).nodup_iff.mpr h)

theorem groupedMeans_pairwise (v : List Record) :
    (groupedMeans v).Pairwise fun p q => p.1 < q.1 :=
  List.Pairwise.map _ (fun _ _ h => h) (sortAsc_pairwise_lt (nodup_uniqueVals _))

theorem groupedMeans_nodup (v : List Record) : (groupedMeans v).Nodup :=
  (groupedMeans_pairwise v).imp fun h => by
    intro heq
    rw [heq] at h
    exact lt_irrefl _ h

theorem mem_groupedMeans {v : List Record} {p : String × ℚ} :
    p ∈ groupedMeans v ↔ p.1 ∈ rolesOf v ∧ p.2 = roleMean v p.1 := by
  rw [groupedMeans, List.mem_map]
  constructor
  · rintro ⟨r, hr, rfl⟩
    exact ⟨mem_sortAsc.mp hr, rfl⟩
  · rintro ⟨h1, h2⟩
    refine ⟨p.1, mem_sortAsc.mpr h1, ?_⟩
    rw [← h2]

theorem top_roles_eq (v : List Record) :
    top_roles v =
      (((groupedMeans v).insertionSort byMeanGE).take 10).insertionSort byMeanLE := rfl

theorem top_roles_perm_take (v : List Record) :
    List.Perm (top_roles v) (((groupedMeans v).insertionSort byMeanGE).take 10) := by
  rw [top_roles_eq]
  exact List.perm_insertionSort _ _

theorem mem_top_roles_groupedMeans {v : List Record} {p : String × ℚ}
    (h : p ∈ top_roles v) : p ∈ groupedMeans v := by
  have h1 := (top_roles_perm_take v).mem_iff.mp h
  have h2 := (List.take_sublist 10 _).subset h1
  exact (List.perm_insertionSort byMeanGE _).mem_iff.mp h2

theorem sortDesc_nodup (v : List Record) :
    ((groupedMeans v).insertionSort byMeanGE).Nodup :=
  (List.perm_insertionSort byMeanGE _).nodup_iff.mpr (groupedMeans_nodup v)

theorem top_roles_nodup (v : List Record) : (top_roles v).Nodup :=
  (top_roles_perm_take v).nodup_iff.mpr
    (List.Nodup.sublist (List.take_sublist 10 _) (sortDesc_nodup v))

theorem top_roles_highest (v : List Record) :
    ∀ r ∈ rolesOf v, r ∉ (top_roles v).map Prod.fst →
      ∀ p ∈ top_roles v, roleMean v r ≤ p.2 := by
  intro r hr hnotin p hp
  have hx : (r, roleMean v r) ∈ groupedMeans v := mem_groupedMeans.mpr ⟨hr, rfl⟩
  have hxD : (r, roleMean v r) ∈ (groupedMeans v).insertionSort byMeanGE :=
    (List.perm_insertionSort byMeanGE _).mem_iff.mpr hx
  rw [← List.take_append_drop 10 ((groupedMeans v).insertionSort byMeanGE)] at hxD
  rcases List.mem_append.mp hxD with hxT | hxR
  · exfalso
    apply hnotin
    have : (r, roleMean v r) ∈ top_roles v := (top_roles_perm_take v).mem_iff.mpr hxT
    exact List.mem_map_of_mem Prod.fst this
  · have hpT := (top_roles_perm_take v).mem_iff.mp hp
    exact List.Sorted.rel_of_mem_take_of_mem_drop
      (List.sorted_insertionSort byMeanGE (groupedMeans v)) hpT hxR

theorem top_roles_tie_lex (v : List Record) :
    ∀ p q : String × ℚ, List.Sublist [p, q] (top_roles v) → p.2 = q.2 → p.1 ≤ q.1 := by
  intro p q hsub heq
  by_contra hgt
  push_neg at hgt
  have hpmem : p ∈ top_roles v := hsub.subset (List.mem_cons_self _ _)
  have hqmem : q ∈ top_roles v :=
    hsub.subset (List.mem_cons_of_mem _ (List.mem_singleton.mpr rfl))
  obtain ⟨hp1, hp2⟩ := mem_groupedMeans.mp (mem_top_roles_groupedMeans hpmem)
  obtain ⟨hq1, hq2⟩ := mem_groupedMeans.mp (mem_top_roles_groupedMeans hqmem)
  have hpair : List.Sublist [q.1, p.1] (sortAsc (rolesOf v)) :=
    pair_sublist_of_mem_pairwise (fun _ _ h => lt_asymm h)
      (sortAsc_pairwise_lt (nodup_uniqueVals _))
      (mem_sortAsc.mpr hq1) (mem_sortAsc.mpr hp1) hgt
  have hmap := hpair.map fun r => (r, roleMean v r)
  rw [List.map_cons, List.map_cons, List.map_nil] at hmap
  have hqeta : (q.1, roleMean v q.1) = q := by rw [← hq2]
  have hpeta : (p.1, roleMean v p.1) = p := by rw [← hp2]
  rw [hqeta, hpeta] at hmap
  have hqp : byMeanGE q p := le_of_eq heq
  have hD : List.Sublist [q, p] ((groupedMeans v).insertionSort byMeanGE) :=
    List.pair_sublist_insertionSort hqp hmap
  have hndD := sortDesc_nodup v
  rw [← List.take_append_drop 10 ((groupedMeans v).insertionSort byMeanGE)] at hD hndD
  have hqT := (top_roles_perm_take v).mem_iff.mp hqmem
  have hpT := (top_roles_perm_take v).mem_iff.mp hpmem
  have hTsub : List.Sublist [q, p]
      (((groupedMeans v).insertionSort byMeanGE).take 10) :=
    pair_sublist_append_left hD hndD hpT
  have htop : List.Sublist [q, p] (top_roles v) := by
    rw [top_roles_eq]
    exact List.pair_sublist_insertionSort (le_of_eq heq.symm) hTsub
  have : p = q := eq_of_pair_sublist_both (top_roles_nodup v) hsub htop
  rw [this] at hgt
  exact lt_irrefl _ hgt

/-- C5 (amended): on a non-empty view, the top-roles table has at most 10
entries, each entry's mean is the arithmetic mean of the salaries of that
role's records in the view, the entries carry the highest role means (any
role left out has mean at most every listed mean), the table is sorted
ascending by mean, and roles with equal means appear in ascending role-name
order (pandas `groupby` sorts group keys, so ties follow role order, not
view encounter order). -/
theorem C5_top_roles (v : List Record) (hvne : v ≠ []) :
    (top_roles v).length ≤ 10 ∧
      (∀ p ∈ top_roles v, (v.filter fun x => x.cargo == p.1) ≠ [] ∧
        p.2 = ((v.filter fun x => x.cargo == p.1).map Record.usd).sum /
          (v.filter fun x => x.cargo == p.1).length) ∧
      (top_roles v).Sorted byMeanLE ∧
      (∀ r ∈ rolesOf v, r ∉ (top_roles v).map Prod.fst →
        ∀ p ∈ top_roles v, roleMean v r ≤ p.2) ∧
      (∀ p q : String × ℚ, List.Sublist [p, q] (top_roles v) → p.2 = q.2 → p.1 ≤ q.1) := by
  refine ⟨?_, ?_, ?_, top_roles_highest v, top_roles_tie_lex v⟩
  · rw [(top_roles_perm_take v).length_eq, List.length_take]
    exact min_le_left _ _
  · intro p hp
    obtain ⟨h1, h2⟩ := mem_groupedMeans.mp (mem_top_roles_groupedMeans hp)
    constructor
    · rcases List.mem_map.mp (mem_uniqueVals.mp h1) with ⟨x, hx, hxc⟩
      intro hnil
      have hxf : x ∈ v.filter fun y => y.cargo == p.1 :=
        List.mem_filter.mpr ⟨hx, by rw [beq_iff_eq, hxc]⟩
      rw [hnil] at hxf
      cases hxf
    · rw [h2, roleMean, meanUsd]
  · rw [top_roles_eq]
    exact List.sorted_insertionSort byMeanLE _

/-- C5 witness: the amended claim applied to a concrete two-record view. -/
theorem C5_top_roles_witness :
    (top_roles [recB, recA]).length ≤ 10 ∧
      (∀ p ∈ top_roles [recB, recA], ([recB, recA].filter fun x => x.cargo == p.1) ≠ [] ∧
        p.2 = (([recB, recA].filter fun x => x.cargo == p.1).map Record.usd).sum /
          ([recB, recA].filter fun x => x.cargo == p.1).length) ∧
      (top_roles [recB, recA]).Sorted byMeanLE ∧
      (∀ r ∈ rolesOf [recB, recA], r ∉ (top_roles [recB, recA]).map Prod.fst →
        ∀ p ∈ top_roles [recB, recA], roleMean [recB, recA] r ≤ p.2) ∧
      (∀ p q : String × ℚ, List.Sublist [p, q] (top_roles [recB, recA]) →
        p.2 = q.2 → p.1 ≤ q.1) :=
  C5_top_roles [recB, recA] (by simp)

theorem roleMean_recA : roleMean [recB, recA] "a" = 100 := by
  have h : ([recB, recA].filter fun x => x.cargo == "a") = [recA] := rfl
  rw [roleMean, h, meanUsd]
  norm_num [recA]

theorem roleMean_recB : roleMean [recB, recA] "b" = 100 := by
  have h : ([recB, recA].filter fun x => x.cargo == "b") = [recB] := rfl
  rw [roleMean, h, meanUsd]
  norm_num [recB]

theorem groupedMeans_counter : groupedMeans [recB, recA] = [("a", 100), ("b", 100)] := by
  have h1 : rolesOf [recB, recA] = ["b", "a"] := rfl
  have h2 : sortAsc ["b", "a"] = ["a", "b"] := by
    simp [sortAsc, List.insertionSort, List.orderedInsert]
    decide
  rw [groupedMeans, h1, h2, List.map_cons, List.map_cons, List.map_nil,
    roleMean_recA, roleMean_recB]

theorem top_roles_counter : top_roles [recB, recA] = [("a", 100), ("b", 100)] := by
  rw [top_roles, nlargestMeans, groupedMeans_counter]
  have hsort1 : List.insertionSort byMeanGE [("a", (100 : ℚ)), ("b", 100)] =
      [("a", 100), ("b", 100)] := by
    simp [List.insertionSort, List.orderedInsert, byMeanGE]
  rw [hsort1]
  have htake : ([("a", (100 : ℚ)), ("b", 100)]).take 10 = [("a", 100), ("b", 100)] := rfl
  rw [htake]
  simp [List.insertionSort, List.orderedInsert, byMeanLE]

/-- C5 counterexample: on a view whose roles `"b"` (first encountered) and
`"a"` have equal means, the table lists `"a"` before `"b"` — roles with equal
means follow ascending role-name order, not the view encounter order the
claim requires. -/
theorem C5_counterexample :
    roleMean [recB, recA] "a" = roleMean [recB, recA] "b" ∧
      rolesOf [recB, recA] = ["b", "a"] ∧
      top_roles [recB, recA] = [("a", 100), ("b", 100)] ∧
      top_roles [recB, recA] ≠ [("b", 100), ("a", 100)] := by
  refine ⟨?_, rfl, top_roles_counter, ?_⟩
  · rw [roleMean_recA, roleMean_recB]
  · rw [top_roles_counter]
    intro h
    have := List.head_eq_of_cons_eq h
    simp at this
